import Mathlib

/-!
Verification of the lit-vek repository (Rust crate `lit_vek`).

The crate has two parts:

* a runtime iterator adaptor `cycle_n` / `CycleN` (src/iter.rs, lines 1-68)
  that repeats a cloneable finite sequence a fixed number of times;
* three token-rewriting macros, `iter!` (src/iter.rs, lines 125-192),
  `vek!` (src/lib.rs, lines 113-119) and `chain!` (src/chain.rs, lines 9-41),
  that expand "spread" syntax `...xs` inside sequence literals.

The `CycleN` iterator is embedded as an explicit state machine whose
iterators are Lean lists (the `I : Iterator + Clone` of the Rust code is a
cloneable stream of elements; a `List α` together with head-removal is
exactly that interface).  The macros are embedded as recursive functions on
a structured model of the macro argument token-trees, with one match arm per
`macro_rules` rule, in the source rule order.
-/

namespace LitVek

/-- Model of the Rust struct `CycleN<I>` (src/iter.rs lines 1-9): both the
original iterator and the current cursor are stored in `Option` so that the
code can avoid needless `clone()` calls, plus the remaining-repeat counter
`n : usize`. An iterator is modelled as the list of its remaining elements. -/
structure CycleN (α : Type) where
  orig : Option (List α)
  iter : Option (List α)
  n : Nat
  deriving Repr, DecidableEq

variable {α : Type}

/-- Model of `pub fn cycle_n<I>(it, n)` (src/iter.rs lines 21-49):
`n = 0` stores nothing, `n = 1` stores only the cursor (no clone),
`n ≥ 2` stores the iterator and a clone of it as the cursor. -/
def cycle_n (it : List α) (n : Nat) : CycleN α :=
  match n with
  | 0 => ⟨none, none, 0⟩
  | 1 => ⟨none, some it, 1⟩
  | m + 2 => ⟨some it, some it, m + 2⟩

/-- Model of `CycleN::next` (src/iter.rs lines 54-67): the
`while let Some(it) = &mut self.iter` loop.  Each iteration either yields the
cursor's next element, or (cursor exhausted) decrements `n` and reloads the
cursor from `orig` — by `orig.take()` when the new `n` is below 2, by
`orig.clone()` otherwise — and re-checks the loop condition.  The `usize`
decrement `self.n -= 1` is modelled by truncated subtraction `n - 1`;
`nextChecked` below models the same code with the underflow check made
explicit. -/
def next : CycleN α → Option α × CycleN α
  | ⟨o, none, n⟩ => (none, ⟨o, none, n⟩)
  | ⟨o, some (x :: xs), n⟩ => (some x, ⟨o, some xs, n⟩)
  | ⟨o, some [], n⟩ =>
    if _h : n - 1 < 2 then
      match o with
      | none => (none, ⟨none, none, n - 1⟩)
      | some ov => next ⟨none, some ov, n - 1⟩
    else
      next ⟨o, o, n - 1⟩
termination_by c => c.n + (match c.orig with | some _ => 1 | none => 0)
decreasing_by
  · simp; omega
  · simp; omega

/-- Model of `CycleN::next` with the `usize` underflow of `self.n -= 1` made
explicit: the result is `none` when the decrement would be executed with
`n = 0` (a panic in the Rust code), and `some` of the `next` result
otherwise. -/
def nextChecked : CycleN α → Option (Option α × CycleN α)
  | ⟨o, none, n⟩ => some (none, ⟨o, none, n⟩)
  | ⟨o, some (x :: xs), n⟩ => some (some x, ⟨o, some xs, n⟩)
  | ⟨o, some [], n⟩ =>
    if n = 0 then none
    else
      if _h : n - 1 < 2 then
        match o with
        | none => some (none, ⟨none, none, n - 1⟩)
        | some ov => nextChecked ⟨none, some ov, n - 1⟩
      else
        nextChecked ⟨o, o, n - 1⟩
termination_by c => c.n + (match c.orig with | some _ => 1 | none => 0)
decreasing_by
  · simp; omega
  · simp; omega

/-- Number of executions of the body of the `while` loop during one call of
`CycleN::next` (src/iter.rs lines 55-65), following the same recursion as
`next`. -/
def nextSteps : CycleN α → Nat
  | ⟨_, none, _⟩ => 0
  | ⟨_, some (_ :: _), _⟩ => 1
  | ⟨o, some [], n⟩ =>
    if _h : n - 1 < 2 then
      match o with
      | none => 1
      | some ov => 1 + nextSteps ⟨none, some ov, n - 1⟩
    else
      1 + nextSteps ⟨o, o, n - 1⟩
termination_by c => c.n + (match c.orig with | some _ => 1 | none => 0)
decreasing_by
  · simp; omega
  · simp; omega

/-- State invariant of `CycleN`: a live cursor implies at least one repeat
left, a stored original implies at least two repeats left, and at least two
repeats left implies both fields are populated. -/
def Inv : CycleN α → Prop
  | ⟨o, i, n⟩ => (i.isSome → 1 ≤ n) ∧ (o.isSome → 2 ≤ n) ∧ (2 ≤ n → o.isSome ∧ i.isSome)

instance (c : CycleN α) : Decidable (Inv c) :=
  match c with
  | ⟨o, i, n⟩ => by simp only [Inv]; infer_instance

/-- Abstraction function: the list of elements a `CycleN` state will still
yield — the rest of the current cursor, then `n - 1` further rounds of the
stored original. -/
def absList : CycleN α → List α
  | ⟨o, i, n⟩ => (i.getD []) ++ (List.replicate (n - 1) (o.getD [])).flatten

/-- Sequence yielded by `cycle_n(xs, n)`: the elements of `xs` repeated `n`
times, in order. -/
def cycleNList (xs : List α) (n : Nat) : List α :=
  (List.replicate n xs).flatten

theorem flatten_replicate_nil (k : Nat) :
    (List.replicate k ([] : List α)).flatten = [] := by
  induction k with
  | zero => simp
  | succ k ih => simp [List.replicate_succ, ih]

theorem absList_cycle_n (xs : List α) (n : Nat) :
    absList (cycle_n xs n) = cycleNList xs n := by
  match n with
  | 0 => simp [cycle_n, absList, cycleNList]
  | 1 => simp [cycle_n, absList, cycleNList]
  | m + 2 => simp [cycle_n, absList, cycleNList, List.replicate_succ]

theorem inv_cycle_n (xs : List α) (n : Nat) : Inv (cycle_n xs n) := by
  match n with
  | 0 => simp [cycle_n, Inv]
  | 1 => simp [cycle_n, Inv]
  | m + 2 => simp [cycle_n, Inv]

/-- Main step lemma: on states satisfying the invariant, `next` yields the
head of the abstraction and leaves the tail, preserving the invariant and
never increasing `n`. -/
theorem next_main (c : CycleN α) :
    Inv c →
      (next c).1 = (absList c).head? ∧
      absList (next c).2 = (absList c).tail ∧
      Inv (next c).2 ∧ (next c).2.n ≤ c.n := by
  induction c using next.induct with
  | case1 o n =>
    intro hI
    simp only [Inv] at hI
    obtain ⟨h1, h2, h3⟩ := hI
    have hn : ¬ 2 ≤ n := fun h => by simpa using (h3 h).2
    have hn1 : n - 1 = 0 := by omega
    refine ⟨?_, ?_, ?_, ?_⟩
    · simp [next, absList, hn1]
    · simp [next, absList, hn1]
    · simpa only [next, Inv] using ⟨h1, h2, h3⟩
    · simp [next]
  | case2 o x xs n =>
    intro hI
    simp only [Inv] at hI
    obtain ⟨h1, h2, h3⟩ := hI
    refine ⟨?_, ?_, ?_, ?_⟩
    · simp [next, absList]
    · simp [next, absList]
    · simp only [next, Inv]
      refine ⟨fun _ => by simpa using h1, by simpa using h2, fun hx => ?_⟩
      exact ⟨(h3 hx).1, by simp⟩
    · simp [next]
  | case3 n h =>
    intro hI
    simp only [Inv] at hI
    obtain ⟨h1, h2, h3⟩ := hI
    refine ⟨?_, ?_, ?_, ?_⟩
    · simp [next, h, absList, flatten_replicate_nil]
    · simp [next, h, absList, flatten_replicate_nil]
    · simp only [next, dif_pos h, Inv]
      refine ⟨by simp, by simp, fun hx => absurd hx (by omega)⟩
    · simp only [next, dif_pos h]
      omega
  | case4 n h ov ih =>
    intro hI
    simp only [Inv] at hI
    obtain ⟨h1, h2, h3⟩ := hI
    have hn : n = 2 := by
      have := h2 (by simp)
      omega
    subst hn
    have hmid : Inv (⟨none, some ov, 2 - 1⟩ : CycleN α) := by
      simp [Inv]
    obtain ⟨i1, i2, i3, i4⟩ := ih hmid
    have hnx : next (⟨some ov, some [], 2⟩ : CycleN α) = next ⟨none, some ov, 2 - 1⟩ := by
      rw [next]
      norm_num
    have habs : absList (⟨some ov, some [], 2⟩ : CycleN α) = ov := by
      simp [absList]
    have habs2 : absList (⟨none, some ov, 2 - 1⟩ : CycleN α) = ov := by
      simp [absList]
    rw [hnx, habs]
    rw [habs2] at i1 i2
    refine ⟨i1, i2, i3, ?_⟩
    simp only [CycleN.n] at i4 ⊢
    omega
  | case5 o n h ih =>
    intro hI
    simp only [Inv] at hI
    obtain ⟨h1, h2, h3⟩ := hI
    have hn : 3 ≤ n := by omega
    obtain ⟨ho, -⟩ := h3 (by omega)
    obtain ⟨ov, rfl⟩ := Option.isSome_iff_exists.mp ho
    have hmid : Inv (⟨some ov, some ov, n - 1⟩ : CycleN α) := by
      simp only [Inv]
      refine ⟨fun _ => by omega, fun _ => by omega, fun _ => by simp⟩
    obtain ⟨i1, i2, i3, i4⟩ := ih hmid
    have hnx : next (⟨some ov, some [], n⟩ : CycleN α) = next ⟨some ov, some ov, n - 1⟩ := by
      rw [next]
      simp only [dif_neg h]
    have habs : absList (⟨some ov, some [], n⟩ : CycleN α) =
        absList (⟨some ov, some ov, n - 1⟩ : CycleN α) := by
      simp only [absList]
      have h2s : n - 1 = (n - 2) + 1 := by omega
      have h2t : n - 1 - 1 = n - 2 := by omega
      rw [h2s, List.replicate_succ]
      simp [h2t]
    rw [hnx, habs]
    refine ⟨i1, i2, i3, ?_⟩
    simp only [CycleN.n] at i4 ⊢
    omega

theorem next_inv (c : CycleN α) (h : Inv c) : Inv (next c).2 :=
  ((next_main c h).2.2).1

theorem next_abs_head (c : CycleN α) (h : Inv c) : (next c).1 = (absList c).head? :=
  (next_main c h).1

theorem next_abs_tail (c : CycleN α) (h : Inv c) : absList (next c).2 = (absList c).tail :=
  (next_main c h).2.1

/-- On invariant states, the explicit-underflow model agrees with `next` and
never signals a panic: the counter is never decremented at zero. -/
theorem nextChecked_eq (c : CycleN α) :
    Inv c → nextChecked c = some (next c) := by
  induction c using next.induct with
  | case1 o n =>
    intro _
    simp [next, nextChecked]
  | case2 o x xs n =>
    intro _
    simp [next, nextChecked]
  | case3 n h =>
    intro hI
    simp only [Inv] at hI
    have hn : 1 ≤ n := hI.1 (by simp)
    rw [next, nextChecked]
    rw [if_neg (by omega), dif_pos h, dif_pos h]
  | case4 n h ov ih =>
    intro hI
    simp only [Inv] at hI
    have hn : 2 ≤ n := hI.2.1 (by simp)
    have hmid : Inv (⟨none, some ov, n - 1⟩ : CycleN α) := by
      simp only [Inv]
      exact ⟨fun _ => by omega, by simp, fun hx => absurd hx (by omega)⟩
    rw [next, nextChecked]
    rw [if_neg (by omega), dif_pos h, dif_pos h]
    exact ih hmid
  | case5 o n h ih =>
    intro hI
    simp only [Inv] at hI
    obtain ⟨ho, -⟩ := hI.2.2 (by omega)
    obtain ⟨ov, rfl⟩ := Option.isSome_iff_exists.mp ho
    have hmid : Inv (⟨some ov, some ov, n - 1⟩ : CycleN α) := by
      simp only [Inv]
      exact ⟨fun _ => by omega, fun _ => by omega, fun _ => by simp⟩
    rw [next, nextChecked]
    rw [if_neg (by omega), dif_neg h, dif_neg h]
    exact ih hmid

/-- State reached after `k` calls to `next`. -/
def nexts : Nat → CycleN α → CycleN α
  | 0, c => c
  | k + 1, c => nexts k (next c).2

theorem nexts_inv (k : Nat) (c : CycleN α) (h : Inv c) : Inv (nexts k c) := by
  induction k generalizing c with
  | zero => exact h
  | succ k ih => exact ih _ (next_inv c h)

theorem nexts_nil (j : Nat) (c : CycleN α) (hI : Inv c) (hA : absList c = []) :
    Inv (nexts j c) ∧ absList (nexts j c) = [] := by
  induction j generalizing c with
  | zero => exact ⟨hI, hA⟩
  | succ j ih =>
    refine ih (next c).2 (next_inv c hI) ?_
    rw [next_abs_tail c hI, hA]
    rfl

theorem nexts_add (k j : Nat) (c : CycleN α) :
    nexts (k + j) c = nexts j (nexts k c) := by
  induction k generalizing c with
  | zero => simp [nexts]
  | succ k ih =>
    have : k + 1 + j = (k + j) + 1 := by omega
    rw [this, nexts, nexts, ih]

/-- Driver: call `next` `k` times, collecting the yielded elements in order
and returning the final state. -/
def runN : Nat → CycleN α → List α × CycleN α
  | 0, c => ([], c)
  | k + 1, c =>
    match next c with
    | (some x, c2) =>
      let r := runN k c2
      (x :: r.1, r.2)
    | (none, c2) => runN k c2

theorem runN_abs (L : List α) : ∀ c : CycleN α, Inv c → absList c = L →
    (runN L.length c).1 = L ∧ absList (runN L.length c).2 = [] ∧
      Inv (runN L.length c).2 := by
  induction L with
  | nil =>
    intro c hI hA
    exact ⟨rfl, hA, hI⟩
  | cons x rest ih =>
    intro c hI hA
    have h1 := next_abs_head c hI
    have h2 := next_abs_tail c hI
    have h3 := next_inv c hI
    rw [hA] at h1 h2
    obtain ⟨y, c2, hp⟩ : ∃ y c2, next c = (y, c2) := ⟨(next c).1, (next c).2, rfl⟩
    rw [hp] at h1 h2 h3
    simp only [List.head?] at h1
    simp only [List.tail_cons] at h2 h3 ⊢
    subst h1
    obtain ⟨j1, j2, j3⟩ := ih c2 h3 h2
    simp only [List.length_cons, runN, hp]
    exact ⟨by rw [j1], j2, j3⟩

theorem cycleNList_length (xs : List α) (n : Nat) :
    (cycleNList xs n).length = n * xs.length := by
  induction n with
  | zero => simp [cycleNList]
  | succ n ih =>
    simp only [cycleNList, List.replicate_succ, List.flatten_cons,
      List.length_append] at ih ⊢
    rw [ih]
    ring

theorem cycleNList_nil (n : Nat) : cycleNList ([] : List α) n = [] :=
  flatten_replicate_nil n

/-- CLAIM C3: for every finite sequence `xs` and every `n`, the iterator
`cycle_n(xs, n)` yields exactly the elements of `xs` in order repeated `n`
times — `n * xs.length` elements in total — and after them `next` returns
`None`. -/
theorem cycle_n_repeats_c3 (xs : List α) (n : Nat) :
    (runN (n * xs.length) (cycle_n xs n)).1 = cycleNList xs n ∧
      (next (runN (n * xs.length) (cycle_n xs n)).2).1 = none := by
  have hk : n * xs.length = (cycleNList xs n).length := (cycleNList_length xs n).symm
  obtain ⟨j1, j2, j3⟩ :=
    runN_abs (cycleNList xs n) (cycle_n xs n) (inv_cycle_n xs n) (absList_cycle_n xs n)
  rw [hk]
  refine ⟨j1, ?_⟩
  rw [next_abs_head _ j3, j2]
  rfl

/-- CLAIM C5: the runtime helper never fails.  On every state reachable by a
sequence of `next` calls from any `cycle_n(xs, n)`, running `next` with the
underflow check made explicit succeeds (returns `some`): the decrement
`self.n -= 1` is never executed with `n = 0`. -/
theorem no_underflow_c5 (xs : List α) (n k : Nat) :
    nextChecked (nexts k (cycle_n xs n)) = some (next (nexts k (cycle_n xs n))) :=
  nextChecked_eq _ (nexts_inv k _ (inv_cycle_n xs n))

/-- CLAIM C8: `CycleN` is fused.  The drained state (`iter = none`,
`orig = none`) is a fixed point of `next` yielding `None`, and on every
iterator produced by `cycle_n`, once a call of `next` returns `None`, every
later call also returns `None`. -/
theorem fused_none_c8 (xs : List α) (n k j m : Nat) :
    next (⟨none, none, m⟩ : CycleN α) = (none, ⟨none, none, m⟩) ∧
      ((next (nexts k (cycle_n xs n))).1 = none →
        (next (nexts j (nexts k (cycle_n xs n)))).1 = none) := by
  constructor
  · simp [next]
  · intro h0
    have hI : Inv (nexts k (cycle_n xs n)) := nexts_inv k _ (inv_cycle_n xs n)
    have hA : absList (nexts k (cycle_n xs n)) = [] := by
      cases habs : absList (nexts k (cycle_n xs n)) with
      | nil => rfl
      | cons y ys =>
        have := next_abs_head _ hI
        rw [habs] at this
        rw [h0] at this
        simp at this
    obtain ⟨hI2, hA2⟩ := nexts_nil j _ hI hA
    rw [next_abs_head _ hI2, hA2]
    rfl

/-- Witness for C8 at a concrete input. -/
theorem fused_none_c8_witness :
    next (⟨none, none, 5⟩ : CycleN Nat) = (none, ⟨none, none, 5⟩) ∧
      (next (nexts 1 (nexts 1 (cycle_n [1] 1)))).1 = none := by
  have h := fused_none_c8 [1] 1 1 1 5
  refine ⟨h.1, h.2 ?_⟩
  simp [nexts, cycle_n, next]

theorem nextSteps_empty (m : Nat) :
    nextSteps (⟨some [], some [], m + 2⟩ : CycleN α) = m + 2 := by
  induction m with
  | zero =>
    rw [nextSteps]
    rw [dif_pos (by omega)]
    rw [nextSteps]
    rw [dif_pos (by omega)]
  | succ m ih =>
    rw [nextSteps]
    rw [dif_neg (by omega)]
    have : m + 1 + 2 - 1 = m + 2 := by omega
    rw [this, ih]
    omega

/-- CLAIM C9: for every repeat count `n` — arbitrarily large — on the empty
sequence the very first call of `next` terminates with `None`, and the
internal `while` loop executes its body at most `n + 1` times (the counter
strictly decreases each time the inner iterator is exhausted). -/
theorem empty_seq_terminates_c9 (n : Nat) :
    (next (cycle_n ([] : List α) n)).1 = none ∧
      nextSteps (cycle_n ([] : List α) n) ≤ n + 1 := by
  constructor
  · rw [next_abs_head _ (inv_cycle_n [] n), absList_cycle_n, cycleNList_nil]
    rfl
  · match n with
    | 0 => simp [cycle_n, nextSteps]
    | 1 =>
      rw [cycle_n, nextSteps]
      rw [dif_pos (by omega)]
      omega
    | m + 2 =>
      rw [cycle_n, nextSteps_empty]
      omega

/-- CLAIM C10: every state reachable from a `cycle_n` constructor satisfies
the invariant `iter = Some → n ≥ 1`: the constructor establishes it for every
input (with `orig = iter = none` at `n = 0` and `orig = none` at `n = 1`),
and `next` preserves it without ever increasing `n`. -/
theorem cycleN_invariant_c10 (xs : List α) (n : Nat) (c : CycleN α) :
    (Inv (cycle_n xs n) ∧ (cycle_n xs 0 : CycleN α).orig = none ∧
      (cycle_n xs 0 : CycleN α).iter = none ∧ (cycle_n xs 1 : CycleN α).orig = none) ∧
      (Inv c → Inv (next c).2 ∧ (next c).2.n ≤ c.n) := by
  refine ⟨⟨inv_cycle_n xs n, by simp [cycle_n], by simp [cycle_n], by simp [cycle_n]⟩, ?_⟩
  intro h
  exact ⟨next_inv c h, (next_main c h).2.2.2⟩

/-- Witness for C10 at a concrete input. -/
theorem cycleN_invariant_c10_witness :
    Inv (cycle_n [5] 2) ∧
      (Inv (next (⟨some [5], some [], 2⟩ : CycleN Nat)).2 ∧
        (next (⟨some [5], some [], 2⟩ : CycleN Nat)).2.n ≤
          (⟨some [5], some [], 2⟩ : CycleN Nat).n) :=
  ⟨(cycleN_invariant_c10 [5] 2 (⟨some [5], some [], 2⟩ : CycleN Nat)).1.1,
    (cycleN_invariant_c10 [5] 2 (⟨some [5], some [], 2⟩ : CycleN Nat)).2 (by decide)⟩

/-!
Model of the macro arguments.

A `macro_rules` invocation such as `iter![a, ...xs, ...[x; n], ...[...ys; k]]`
is a comma-separated sequence of argument forms, each of which is matched at
the token-tree level.  The rules of `iter!` and `chain!` distinguish

* whether an argument is a plain element or is marked by the `...` spread
  prefix;
* whether the tokens after a `...` form a single token tree (they then match
  a `$x:tt` fragment) or only a full expression (`$x:expr`);
* for a single-token-tree spread, whether that token tree is a square-bracket
  group, and what its contents look like: a comma list `[a, b, c]`, a repeat
  form `[x; n]`, a cycle form `[...xs; n]`, or unparseable content such as
  `[x; n, y]` (produced by the shift-elem rule, invalid as an expression).

Each argument form is modelled by its shape together with the sequence of
values it denotes.  The repeat count `n` is modelled as a known constant
(`[x; n]` in expression position requires a constant `n` in the source
language).  An expansion result of `none` models a compile-time error:
either no rule matched, or the emitted code contains an invalid expression.
-/

/-- Contents of a square-bracket token-tree group used as a spread argument:
a comma list `[a, b, c]`, a repeat form `[x; n]`, or invalid contents
`[x; n, y, ...]` as produced by shifting elements onto a repeat form. -/
inductive Brack (α : Type) where
  | list : List α → Brack α
  | rep : α → Nat → Brack α
  | bad : α → Nat → List α → Brack α
  deriving Repr, DecidableEq

/-- Value of a bracket group read as a Rust expression: a comma list is an
array literal, `[x; n]` is an array-repeat expression (n copies of x), and
invalid contents are a compile error. -/
def Brack.interp : Brack α → Option (List α)
  | .list vs => some vs
  | .rep x n => some (List.replicate n x)
  | .bad _ _ _ => none

/-- Shift one more element token into a bracket group, as done by the
shift-elem rules (`iter!` src/iter.rs lines 177-179, `chain!` src/chain.rs
lines 26-28): `[$($some)*, $x]`.  Appending to a comma list stays a comma
list; appending to `[x; n]` makes the invalid `[x; n, y]`. -/
def Brack.shift : Brack α → α → Brack α
  | .list vs, y => .list (vs ++ [y])
  | .rep x n, y => .bad x n [y]
  | .bad x n ys, y => .bad x n (ys ++ [y])

/-- One comma-separated argument of an `iter!` / `chain!` / `vek!`
invocation, at the token-tree level:

* `elem v` — a plain element that is a single token tree;
* `elemN v` — a plain element spanning several token trees;
* `spreadTT vs` — `...t` where `t` is one non-bracket token tree denoting a
  sequence with elements `vs` (for example `...arr`, `...(5..7)`);
* `spreadBrack b` — `...[contents]` with a square-bracket group;
* `spreadCycle vs n` — `...[...t; n]`, `t` a single token tree denoting a
  sequence with elements `vs` (matched both by the `$xs:expr` of the head
  rule, src/iter.rs line 140, and by the `$x:tt` of the second-item rule,
  src/iter.rs line 150);
* `spreadCycleN vs n` — `...[...e; n]` where `e` spans several token trees
  (for example `...[...b.c; 2]`): it is matched by the `$xs:expr` of the
  head rule at line 140, but not by the `$x:tt` of the rule at line 150;
* `spreadExpr vs` — `...e` where `e` spans several token trees (for example
  `...v.iter().copied()` or the chain expressions produced by rewriting). -/
inductive Item (α : Type) where
  | elem : α → Item α
  | elemN : α → Item α
  | spreadTT : List α → Item α
  | spreadBrack : Brack α → Item α
  | spreadCycle : List α → Nat → Item α
  | spreadCycleN : List α → Nat → Item α
  | spreadExpr : List α → Item α
  deriving Repr, DecidableEq

/-- Sequence denoted by one argument (total version; invalid brackets denote
the empty sequence and are excluded by the predicates below). -/
def Item.sval : Item α → List α
  | .elem x => [x]
  | .elemN x => [x]
  | .spreadTT xs => xs
  | .spreadBrack (.list vs) => vs
  | .spreadBrack (.rep x n) => List.replicate n x
  | .spreadBrack (.bad _ _ _) => []
  | .spreadCycle xs n => cycleNList xs n
  | .spreadCycleN xs n => cycleNList xs n
  | .spreadExpr xs => xs

/-- Sequence denoted by one argument, `none` on invalid brackets. -/
def Item.val : Item α → Option (List α)
  | .spreadBrack b => b.interp
  | i => some i.sval

/-- Expected denotation of a whole argument list: the in-order concatenation
of the element sequences of the arguments, `none` if any argument contains an
invalid bracket. -/
def flattenArgs : List (Item α) → Option (List α)
  | [] => some []
  | i :: t =>
    match i.val, flattenArgs t with
    | some v, some w => some (v ++ w)
    | _, _ => none

/-- Arguments containing no `[x; n]`-repeat bracket, no invalid bracket,
and no cycle bracket with multi-token-tree contents: the class on which the
`iter!` rules are guaranteed to match in every order and position. -/
def Item.ok : Item α → Bool
  | .spreadBrack (.rep _ _) => false
  | .spreadBrack (.bad _ _ _) => false
  | .spreadCycleN _ _ => false
  | _ => true

/-- Plain elements and plain spreads only: no repeat counts at all. -/
def Item.simple : Item α → Bool
  | .elem _ => true
  | .elemN _ => true
  | .spreadTT _ => true
  | .spreadExpr _ => true
  | .spreadBrack (.list _) => true
  | _ => false

/-- Termination measure for the rewrite rules. -/
def weight : Item α → Nat
  | .elem _ => 3
  | .elemN _ => 3
  | .spreadTT _ => 2
  | .spreadBrack _ => 2
  | .spreadCycle _ _ => 2
  | .spreadCycleN _ _ => 2
  | .spreadExpr _ => 1

/-- Sum of the weights of an argument list. -/
def argsWeight (args : List (Item α)) : Nat := (args.map weight).sum

/-- Model of the `iter!` macro (src/iter.rs lines 125-192) on a
comma-separated argument list, one match arm per rewrite rule, in source
order.  (The two top-level forms `iter![x; n]` and `iter![...x; n]`, which
are not comma-separated argument lists, are modelled separately by
`iterRepMacro` and `cycle_n`.)  The result is the element sequence of the
produced iterator expression, or `none` for a compile-time error. -/
def iterMacro : List (Item α) → Option (List α)
  -- line 127: empty invocation, std::iter::empty()
  | [] => some []
  -- line 140: `...[...xs; n]` at start (`$xs:expr`, any cycle contents):
  -- rewrite to `...cycle_n(xs, n)`, a multi-token-tree spread expression
  | .spreadCycle xs n :: tail => iterMacro (.spreadExpr (cycleNList xs n) :: tail)
  | .spreadCycleN xs n :: tail => iterMacro (.spreadExpr (cycleNList xs n) :: tail)
  -- line 145: a single `...tt` spread (with optional trailing comma):
  -- IntoIterator::into_iter($some)
  | [.spreadTT xs] => some xs
  | [.spreadBrack b] => b.interp
  -- line 150: `...[...x; n]` as second item: rewrite to `...cycle_n(x, n)`
  | .spreadTT hs :: .spreadCycle xs n :: tail =>
    iterMacro (.spreadTT hs :: .spreadExpr (cycleNList xs n) :: tail)
  | .spreadBrack hb :: .spreadCycle xs n :: tail =>
    iterMacro (.spreadBrack hb :: .spreadExpr (cycleNList xs n) :: tail)
  -- a cycle bracket with multi-token-tree contents as second item is a
  -- compile error: the `$x:tt` of the rules at lines 150 and 155 does not
  -- match it, and the rules at lines 160/167 then commit the bracket to
  -- `$xs:expr` expression parsing, which fails hard on `[... e ; n]`
  | .spreadTT _ :: .spreadCycleN _ _ :: _ => none
  | .spreadBrack _ :: .spreadCycleN _ _ :: _ => none
  -- line 155: `...[x; n]` as second item: rewrite to
  -- `...std::iter::repeat(x).take(n)`
  | .spreadTT hs :: .spreadBrack (.rep x n) :: tail =>
    iterMacro (.spreadTT hs :: .spreadExpr (List.replicate n x) :: tail)
  | .spreadBrack hb :: .spreadBrack (.rep x n) :: tail =>
    iterMacro (.spreadBrack hb :: .spreadExpr (List.replicate n x) :: tail)
  -- line 160: `...$some:tt, ...$xs:expr` and nothing else: final chain()
  | [.spreadTT hs, .spreadTT xs] => some (hs ++ xs)
  | [.spreadTT hs, .spreadBrack b] =>
    match b.interp with
    | some bv => some (hs ++ bv)
    | none => none
  | [.spreadTT hs, .spreadExpr xs] => some (hs ++ xs)
  | [.spreadBrack hb, .spreadTT xs] =>
    match hb.interp with
    | some hv => some (hv ++ xs)
    | none => none
  | [.spreadBrack hb, .spreadBrack b] =>
    match hb.interp, b.interp with
    | some hv, some bv => some (hv ++ bv)
    | _, _ => none
  | [.spreadBrack hb, .spreadExpr xs] =>
    match hb.interp with
    | some hv => some (hv ++ xs)
    | none => none
  -- line 167: `...$some:tt, ...$xs:expr, more`: merge into one chain()
  -- expression (a multi-token-tree spread) and continue
  | .spreadTT hs :: .spreadTT xs :: t :: ts =>
    iterMacro (.spreadExpr (hs ++ xs) :: t :: ts)
  | .spreadTT hs :: .spreadBrack b :: t :: ts =>
    match b.interp with
    | some bv => iterMacro (.spreadExpr (hs ++ bv) :: t :: ts)
    | none => none
  | .spreadTT hs :: .spreadExpr xs :: t :: ts =>
    iterMacro (.spreadExpr (hs ++ xs) :: t :: ts)
  | .spreadBrack hb :: .spreadTT xs :: t :: ts =>
    match hb.interp with
    | some hv => iterMacro (.spreadExpr (hv ++ xs) :: t :: ts)
    | none => none
  | .spreadBrack hb :: .spreadBrack b :: t :: ts =>
    match hb.interp, b.interp with
    | some hv, some bv => iterMacro (.spreadExpr (hv ++ bv) :: t :: ts)
    | _, _ => none
  | .spreadBrack hb :: .spreadExpr xs :: t :: ts =>
    match hb.interp with
    | some hv => iterMacro (.spreadExpr (hv ++ xs) :: t :: ts)
    | none => none
  -- line 177: shift a single-token-tree element into the starting bracket
  -- literal: `...[$($some)*], $x` becomes `...[$($some)*, $x]`
  | .spreadBrack b :: .elem x :: tail => iterMacro (.spreadBrack (b.shift x) :: tail)
  -- line 182: first item is a spread, read as an expression:
  -- chain(into_iter($xs), iter![rest])
  | .spreadTT hs :: tail =>
    match iterMacro tail with
    | some tv => some (hs ++ tv)
    | none => none
  | .spreadBrack b :: tail =>
    match b.interp, iterMacro tail with
    | some bv, some tv => some (bv ++ tv)
    | _, _ => none
  | .spreadExpr xs :: tail =>
    match iterMacro tail with
    | some tv => some (xs ++ tv)
    | none => none
  -- line 189: shift a plain element into a new starting literal:
  -- `$x:expr, rest` becomes `...[$x], rest`
  | .elem x :: tail => iterMacro (.spreadBrack (.list [x]) :: tail)
  | .elemN x :: tail => iterMacro (.spreadBrack (.list [x]) :: tail)
termination_by args => argsWeight args
decreasing_by
  all_goals (simp only [argsWeight, List.map_cons, List.sum_cons, weight]; omega)

theorem ok_head {i : Item α} {t : List (Item α)}
    (h : ∀ j ∈ i :: t, Item.ok j = true) : Item.ok i = true :=
  h i (List.mem_cons_self i t)

theorem ok_tail {i : Item α} {t : List (Item α)}
    (h : ∀ j ∈ i :: t, Item.ok j = true) : ∀ j ∈ t, Item.ok j = true :=
  fun j hj => h j (List.mem_cons_of_mem _ hj)

theorem ok_cons {i : Item α} {t : List (Item α)} (hi : Item.ok i = true)
    (ht : ∀ j ∈ t, Item.ok j = true) : ∀ j ∈ i :: t, Item.ok j = true := by
  intro j hj
  rcases List.mem_cons.mp hj with rfl | hj
  · exact hi
  · exact ht j hj

/-- On argument lists free of `[x; n]`-repeat brackets the `iter!` rules
always match, and the expansion is the in-order concatenation of the
argument sequences. -/
theorem iterMacro_ok (args : List (Item α)) :
    (∀ i ∈ args, Item.ok i = true) →
      iterMacro args = some (((args.map Item.sval)).flatten) := by
  induction args using iterMacro.induct <;> intro hok
  case case1 => simp [iterMacro]
  case case2 xs n tail ih =>
    have e : iterMacro (Item.spreadCycle xs n :: tail) =
        iterMacro (Item.spreadExpr (cycleNList xs n) :: tail) := by
      simp only [iterMacro]
    rw [e, ih (ok_cons rfl (ok_tail hok))]
    simp [Item.sval]
  case case3 =>
    have := ok_head hok
    simp [Item.ok] at this
  case case8 =>
    have := ok_head (ok_tail hok)
    simp [Item.ok] at this
  case case9 =>
    have := ok_head (ok_tail hok)
    simp [Item.ok] at this
  case case4 xs => simp [iterMacro, Item.sval]
  case case5 b =>
    cases b with
    | list vs => simp [iterMacro, Brack.interp, Item.sval]
    | rep x n => have := ok_head hok; simp [Item.ok] at this
    | bad x n ys => have := ok_head hok; simp [Item.ok] at this
  case case6 hs xs n tail ih =>
    have e : iterMacro (Item.spreadTT hs :: Item.spreadCycle xs n :: tail) =
        iterMacro (Item.spreadTT hs :: Item.spreadExpr (cycleNList xs n) :: tail) := by
      simp only [iterMacro]
    rw [e, ih (ok_cons (ok_head hok) (ok_cons rfl (ok_tail (ok_tail hok))))]
    simp [Item.sval]
  case case7 hb xs n tail ih =>
    have e : iterMacro (Item.spreadBrack hb :: Item.spreadCycle xs n :: tail) =
        iterMacro (Item.spreadBrack hb :: Item.spreadExpr (cycleNList xs n) :: tail) := by
      simp only [iterMacro]
    rw [e, ih (ok_cons (ok_head hok) (ok_cons rfl (ok_tail (ok_tail hok))))]
    simp [Item.sval]
  case case10 hs x n tail ih =>
    have := ok_head (ok_tail hok)
    simp [Item.ok] at this
  case case11 hb x n tail ih =>
    have := ok_head (ok_tail hok)
    simp [Item.ok] at this
  case case12 hs xs => simp [iterMacro, Item.sval]
  case case13 hs b hne val hval =>
    cases b with
    | list vs => simp [iterMacro, Brack.interp, Item.sval]
    | rep x n => exact absurd rfl (hne x n)
    | bad x n ys => simp [Brack.interp] at hval
  case case14 hs b hne hnone =>
    cases b with
    | list vs => simp [Brack.interp] at hnone
    | rep x n => exact absurd rfl (hne x n)
    | bad x n ys => have := ok_head (ok_tail hok); simp [Item.ok] at this
  case case15 hs xs => simp [iterMacro, Item.sval]
  case case16 hb xs val hval =>
    cases hb with
    | list vs => simp [iterMacro, Brack.interp, Item.sval]
    | rep x n => have := ok_head hok; simp [Item.ok] at this
    | bad x n ys => simp [Brack.interp] at hval
  case case17 hb xs hnone =>
    cases hb with
    | list vs => simp [Brack.interp] at hnone
    | rep x n => have := ok_head hok; simp [Item.ok] at this
    | bad x n ys => have := ok_head hok; simp [Item.ok] at this
  case case18 hb b hne v w hw hv =>
    cases hb with
    | rep x n => have := ok_head hok; simp [Item.ok] at this
    | bad x n ys => simp [Brack.interp] at hv
    | list hvs =>
      cases b with
      | rep x n => exact absurd rfl (hne x n)
      | bad x n ys => simp [Brack.interp] at hw
      | list vs => simp [iterMacro, Brack.interp, Item.sval]
  case case19 hb b hne hfail =>
    cases hb with
    | rep x n => have := ok_head hok; simp [Item.ok] at this
    | bad x n ys => have := ok_head hok; simp [Item.ok] at this
    | list hvs =>
      cases b with
      | rep x n => exact absurd rfl (hne x n)
      | bad x n ys => have := ok_head (ok_tail hok); simp [Item.ok] at this
      | list vs => exact (hfail hvs vs rfl rfl).elim
  case case20 hb xs val hval =>
    cases hb with
    | list vs => simp [iterMacro, Brack.interp, Item.sval]
    | rep x n => have := ok_head hok; simp [Item.ok] at this
    | bad x n ys => simp [Brack.interp] at hval
  case case21 hb xs hnone =>
    cases hb with
    | list vs => simp [Brack.interp] at hnone
    | rep x n => have := ok_head hok; simp [Item.ok] at this
    | bad x n ys => have := ok_head hok; simp [Item.ok] at this
  case case22 hs xs t ts ih =>
    have e : iterMacro (Item.spreadTT hs :: Item.spreadTT xs :: t :: ts) =
        iterMacro (Item.spreadExpr (hs ++ xs) :: t :: ts) := by
      simp only [iterMacro]
    rw [e, ih (ok_cons rfl (ok_tail (ok_tail hok)))]
    simp [Item.sval]
  case case23 hs b t ts hne val hval ih =>
    cases b with
    | rep x n => exact absurd rfl (hne x n)
    | bad x n ys => simp [Brack.interp] at hval
    | list vs =>
      obtain rfl : vs = val := by simpa [Brack.interp] using hval
      have e : iterMacro
          (Item.spreadTT hs :: Item.spreadBrack (Brack.list vs) :: t :: ts) =
          iterMacro (Item.spreadExpr (hs ++ vs) :: t :: ts) := by
        simp only [iterMacro, Brack.interp]
      rw [e, ih (ok_cons rfl (ok_tail (ok_tail hok)))]
      simp [Item.sval]
  case case24 hs b t ts hne hnone =>
    cases b with
    | list vs => simp [Brack.interp] at hnone
    | rep x n => exact absurd rfl (hne x n)
    | bad x n ys => have := ok_head (ok_tail hok); simp [Item.ok] at this
  case case25 hs xs t ts ih =>
    have e : iterMacro (Item.spreadTT hs :: Item.spreadExpr xs :: t :: ts) =
        iterMacro (Item.spreadExpr (hs ++ xs) :: t :: ts) := by
      simp only [iterMacro]
    rw [e, ih (ok_cons rfl (ok_tail (ok_tail hok)))]
    simp [Item.sval]
  case case26 hb xs t ts val hval ih =>
    cases hb with
    | rep x n => have := ok_head hok; simp [Item.ok] at this
    | bad x n ys => simp [Brack.interp] at hval
    | list vs =>
      obtain rfl : vs = val := by simpa [Brack.interp] using hval
      have e : iterMacro
          (Item.spreadBrack (Brack.list vs) :: Item.spreadTT xs :: t :: ts) =
          iterMacro (Item.spreadExpr (vs ++ xs) :: t :: ts) := by
        simp only [iterMacro, Brack.interp]
      rw [e, ih (ok_cons rfl (ok_tail (ok_tail hok)))]
      simp [Item.sval]
  case case27 hb xs t ts hnone =>
    cases hb with
    | list vs => simp [Brack.interp] at hnone
    | rep x n => have := ok_head hok; simp [Item.ok] at this
    | bad x n ys => have := ok_head hok; simp [Item.ok] at this
  case case28 hb b t ts hne v w hw hv ih =>
    cases hb with
    | rep x n => have := ok_head hok; simp [Item.ok] at this
    | bad x n ys => simp [Brack.interp] at hv
    | list hvs =>
      obtain rfl : hvs = v := by simpa [Brack.interp] using hv
      cases b with
      | rep x n => exact absurd rfl (hne x n)
      | bad x n ys => simp [Brack.interp] at hw
      | list vs =>
        obtain rfl : vs = w := by simpa [Brack.interp] using hw
        have e : iterMacro
            (Item.spreadBrack (Brack.list hvs) :: Item.spreadBrack (Brack.list vs) :: t :: ts) =
            iterMacro (Item.spreadExpr (hvs ++ vs) :: t :: ts) := by
          simp only [iterMacro, Brack.interp]
        rw [e, ih (ok_cons rfl (ok_tail (ok_tail hok)))]
        simp [Item.sval]
  case case29 hb b t ts hne hfail =>
    cases hb with
    | rep x n => have := ok_head hok; simp [Item.ok] at this
    | bad x n ys => have := ok_head hok; simp [Item.ok] at this
    | list hvs =>
      cases b with
      | rep x n => exact absurd rfl (hne x n)
      | bad x n ys => have := ok_head (ok_tail hok); simp [Item.ok] at this
      | list vs => exact (hfail hvs vs rfl rfl).elim
  case case30 hb xs t ts val hval ih =>
    cases hb with
    | rep x n => have := ok_head hok; simp [Item.ok] at this
    | bad x n ys => simp [Brack.interp] at hval
    | list vs =>
      obtain rfl : vs = val := by simpa [Brack.interp] using hval
      have e : iterMacro
          (Item.spreadBrack (Brack.list vs) :: Item.spreadExpr xs :: t :: ts) =
          iterMacro (Item.spreadExpr (vs ++ xs) :: t :: ts) := by
        simp only [iterMacro, Brack.interp]
      rw [e, ih (ok_cons rfl (ok_tail (ok_tail hok)))]
      simp [Item.sval]
  case case31 hb xs t ts hnone =>
    cases hb with
    | list vs => simp [Brack.interp] at hnone
    | rep x n => have := ok_head hok; simp [Item.ok] at this
    | bad x n ys => have := ok_head hok; simp [Item.ok] at this
  case case32 b x tail ih =>
    cases b with
    | rep y n => have := ok_head hok; simp [Item.ok] at this
    | bad y n ys => have := ok_head hok; simp [Item.ok] at this
    | list vs =>
      simp only [Brack.shift] at ih
      have e : iterMacro (Item.spreadBrack (Brack.list vs) :: Item.elem x :: tail) =
          iterMacro (Item.spreadBrack (Brack.list (vs ++ [x])) :: tail) := by
        simp only [iterMacro, Brack.shift]
      rw [e, ih (ok_cons rfl (ok_tail (ok_tail hok)))]
      simp [Item.sval]
  case case33 hs tail c1 c2 c3 c4 c5 c6 c7 c8 c9 c10 val hval ih =>
    have hv2 : iterMacro tail = some ((tail.map Item.sval).flatten) := ih (ok_tail hok)
    simp [iterMacro, c1, c2, c3, c4, c5, c6, c7, c8, c9, c10, hv2, Item.sval]
  case case34 hs tail c1 c2 c3 c4 c5 c6 c7 c8 c9 c10 hnone ih =>
    rw [ih (ok_tail hok)] at hnone
    simp at hnone
  case case35 b tail c1 c2 c3 c4 c5 c6 c7 c8 c9 c10 c11 v w hw hv ih =>
    cases b with
    | rep y n => have := ok_head hok; simp [Item.ok] at this
    | bad y n ys => have := ok_head hok; simp [Item.ok] at this
    | list vs =>
      have hv2 : iterMacro tail = some ((tail.map Item.sval).flatten) := ih (ok_tail hok)
      simp [iterMacro, Brack.interp, c1, c2, c3, c4, c5, c6, c7, c8, c9, c10, c11, hv2, Item.sval]
  case case36 b tail c1 c2 c3 c4 c5 c6 c7 c8 c9 c10 c11 hfail ih =>
    cases b with
    | rep y n => have := ok_head hok; simp [Item.ok] at this
    | bad y n ys => have := ok_head hok; simp [Item.ok] at this
    | list vs =>
      exact (hfail vs ((tail.map Item.sval).flatten) rfl (ih (ok_tail hok))).elim
  case case37 xs tail val hval ih =>
    have hv2 : iterMacro tail = some ((tail.map Item.sval).flatten) := ih (ok_tail hok)
    simp [iterMacro, hv2, Item.sval]
  case case38 xs tail hnone ih =>
    rw [ih (ok_tail hok)] at hnone
    simp at hnone
  case case39 x tail ih =>
    have e : iterMacro (Item.elem x :: tail) =
        iterMacro (Item.spreadBrack (Brack.list [x]) :: tail) := by
      simp only [iterMacro]
    rw [e, ih (ok_cons rfl (ok_tail hok))]
    simp [Item.sval]
  case case40 x tail ih =>
    have e : iterMacro (Item.elemN x :: tail) =
        iterMacro (Item.spreadBrack (Brack.list [x]) :: tail) := by
      simp only [iterMacro]
    rw [e, ih (ok_cons rfl (ok_tail hok))]
    simp [Item.sval]

theorem fa_retag {A B : Item α} (h : A.val = B.val) (rest : List (Item α)) :
    flattenArgs (A :: rest) = flattenArgs (B :: rest) := by
  simp [flattenArgs, h]

theorem fa_retag2 {A B : Item α} (h : A.val = B.val) (H : Item α) (rest : List (Item α)) :
    flattenArgs (H :: A :: rest) = flattenArgs (H :: B :: rest) := by
  simp only [flattenArgs, h]

theorem fa_merge {A B : Item α} {a b : List α} (hA : A.val = some a) (hB : B.val = some b)
    (rest : List (Item α)) :
    flattenArgs (Item.spreadExpr (a ++ b) :: rest) = flattenArgs (A :: B :: rest) := by
  simp only [flattenArgs, hA, hB]
  cases hft : flattenArgs rest <;> simp [hft, Item.val, Item.sval, List.append_assoc]

theorem fa_shift_list (vs : List α) (x : α) (rest : List (Item α)) :
    flattenArgs (Item.spreadBrack (Brack.list (vs ++ [x])) :: rest) =
      flattenArgs (Item.spreadBrack (Brack.list vs) :: Item.elem x :: rest) := by
  cases hft : flattenArgs rest <;>
    simp [flattenArgs, Item.val, Item.sval, Brack.interp, hft, List.append_assoc]

theorem fa_val_none {i : Item α} (hv : i.val = none) (rest : List (Item α)) :
    flattenArgs (i :: rest) = none := by
  simp [flattenArgs, hv]

/-- Soundness of the rewrite rules: whenever the `iter!` rules match and the
expansion compiles (`some ys`), the result is the expected in-order
concatenation of the argument sequences. -/
theorem iterMacro_sound (args : List (Item α)) :
    ∀ ys, iterMacro args = some ys → flattenArgs args = some ys := by
  induction args using iterMacro.induct
  case case1 =>
    intro ys hy
    simp only [iterMacro, Option.some.injEq] at hy
    subst hy
    rfl
  case case2 xs n tail ih =>
    intro ys hy
    have e : iterMacro (Item.spreadCycle xs n :: tail) =
        iterMacro (Item.spreadExpr (cycleNList xs n) :: tail) := by
      simp only [iterMacro]
    rw [e] at hy
    rw [fa_retag (A := Item.spreadCycle xs n) (B := Item.spreadExpr (cycleNList xs n))
      (by simp [Item.val, Item.sval]) tail]
    exact ih ys hy
  case case3 xs n tail ih =>
    intro ys hy
    have e : iterMacro (Item.spreadCycleN xs n :: tail) =
        iterMacro (Item.spreadExpr (cycleNList xs n) :: tail) := by
      simp only [iterMacro]
    rw [e] at hy
    rw [fa_retag (A := Item.spreadCycleN xs n) (B := Item.spreadExpr (cycleNList xs n))
      (by simp [Item.val, Item.sval]) tail]
    exact ih ys hy
  case case8 =>
    intro ys hy
    simp [iterMacro] at hy
  case case9 =>
    intro ys hy
    simp [iterMacro] at hy
  case case4 xs =>
    intro ys hy
    simp only [iterMacro, Option.some.injEq] at hy
    subst hy
    simp [flattenArgs, Item.val, Item.sval]
  case case5 b =>
    intro ys hy
    cases b with
    | list vs =>
      simp only [iterMacro, Brack.interp, Option.some.injEq] at hy
      subst hy
      simp [flattenArgs, Item.val, Brack.interp]
    | rep x n =>
      simp only [iterMacro, Brack.interp, Option.some.injEq] at hy
      subst hy
      simp [flattenArgs, Item.val, Brack.interp]
    | bad x n l => simp [iterMacro, Brack.interp] at hy
  case case6 hs xs n tail ih =>
    intro ys hy
    have e : iterMacro (Item.spreadTT hs :: Item.spreadCycle xs n :: tail) =
        iterMacro (Item.spreadTT hs :: Item.spreadExpr (cycleNList xs n) :: tail) := by
      simp only [iterMacro]
    rw [e] at hy
    rw [fa_retag2 (A := Item.spreadCycle xs n) (B := Item.spreadExpr (cycleNList xs n))
      (by simp [Item.val, Item.sval]) (Item.spreadTT hs) tail]
    exact ih ys hy
  case case7 hb xs n tail ih =>
    intro ys hy
    have e : iterMacro (Item.spreadBrack hb :: Item.spreadCycle xs n :: tail) =
        iterMacro (Item.spreadBrack hb :: Item.spreadExpr (cycleNList xs n) :: tail) := by
      simp only [iterMacro]
    rw [e] at hy
    rw [fa_retag2 (A := Item.spreadCycle xs n) (B := Item.spreadExpr (cycleNList xs n))
      (by simp [Item.val, Item.sval]) (Item.spreadBrack hb) tail]
    exact ih ys hy
  case case10 hs x n tail ih =>
    intro ys hy
    have e : iterMacro (Item.spreadTT hs :: Item.spreadBrack (Brack.rep x n) :: tail) =
        iterMacro (Item.spreadTT hs :: Item.spreadExpr (List.replicate n x) :: tail) := by
      simp only [iterMacro]
    rw [e] at hy
    rw [fa_retag2 (A := Item.spreadBrack (Brack.rep x n))
      (B := Item.spreadExpr (List.replicate n x))
      (by simp [Item.val, Item.sval, Brack.interp]) (Item.spreadTT hs) tail]
    exact ih ys hy
  case case11 hb x n tail ih =>
    intro ys hy
    have e : iterMacro (Item.spreadBrack hb :: Item.spreadBrack (Brack.rep x n) :: tail) =
        iterMacro (Item.spreadBrack hb :: Item.spreadExpr (List.replicate n x) :: tail) := by
      simp only [iterMacro]
    rw [e] at hy
    rw [fa_retag2 (A := Item.spreadBrack (Brack.rep x n))
      (B := Item.spreadExpr (List.replicate n x))
      (by simp [Item.val, Item.sval, Brack.interp]) (Item.spreadBrack hb) tail]
    exact ih ys hy
  case case12 hs xs =>
    intro ys hy
    simp only [iterMacro, Option.some.injEq] at hy
    subst hy
    simp [flattenArgs, Item.val, Item.sval]
  case case13 hs b hne val hval =>
    intro ys hy
    cases b with
    | rep x n => exact absurd rfl (hne x n)
    | bad x n l => simp [Brack.interp] at hval
    | list vs =>
      simp only [iterMacro, Brack.interp, Option.some.injEq] at hy
      subst hy
      simp [flattenArgs, Item.val, Item.sval, Brack.interp]
  case case14 hs b hne hnone =>
    intro ys hy
    cases b with
    | list vs => simp [Brack.interp] at hnone
    | rep x n => exact absurd rfl (hne x n)
    | bad x n l => simp [iterMacro, Brack.interp] at hy
  case case15 hs xs =>
    intro ys hy
    simp only [iterMacro, Option.some.injEq] at hy
    subst hy
    simp [flattenArgs, Item.val, Item.sval]
  case case16 hb xs val hval =>
    intro ys hy
    cases hb with
    | bad x n l => simp [Brack.interp] at hval
    | list vs =>
      simp only [iterMacro, Brack.interp, Option.some.injEq] at hy
      subst hy
      simp [flattenArgs, Item.val, Item.sval, Brack.interp]
    | rep x n =>
      simp only [iterMacro, Brack.interp, Option.some.injEq] at hy
      subst hy
      simp [flattenArgs, Item.val, Item.sval, Brack.interp]
  case case17 hb xs hnone =>
    intro ys hy
    cases hb with
    | list vs => simp [Brack.interp] at hnone
    | rep x n => simp [Brack.interp] at hnone
    | bad x n l => simp [iterMacro, Brack.interp] at hy
  case case18 hb b hne v w hw hv =>
    intro ys hy
    cases b with
    | rep x n => exact absurd rfl (hne x n)
    | bad x n l => simp [Brack.interp] at hw
    | list vs =>
      cases hb with
      | bad x n l => simp [Brack.interp] at hv
      | list l2 =>
        simp only [iterMacro, Brack.interp, Option.some.injEq] at hy
        subst hy
        simp [flattenArgs, Item.val, Item.sval, Brack.interp]
      | rep x n =>
        simp only [iterMacro, Brack.interp, Option.some.injEq] at hy
        subst hy
        simp [flattenArgs, Item.val, Item.sval, Brack.interp]
  case case19 hb b hne hfail =>
    intro ys hy
    cases b with
    | rep x n => exact absurd rfl (hne x n)
    | bad x n l => cases hb <;> simp [iterMacro, Brack.interp] at hy
    | list vs =>
      cases hb with
      | list l2 => exact (hfail l2 vs rfl rfl).elim
      | rep x n => exact (hfail _ vs rfl rfl).elim
      | bad x n l => simp [iterMacro, Brack.interp] at hy
  case case20 hb xs val hval =>
    intro ys hy
    cases hb with
    | bad x n l => simp [Brack.interp] at hval
    | list vs =>
      simp only [iterMacro, Brack.interp, Option.some.injEq] at hy
      subst hy
      simp [flattenArgs, Item.val, Item.sval, Brack.interp]
    | rep x n =>
      simp only [iterMacro, Brack.interp, Option.some.injEq] at hy
      subst hy
      simp [flattenArgs, Item.val, Item.sval, Brack.interp]
  case case21 hb xs hnone =>
    intro ys hy
    cases hb with
    | list vs => simp [Brack.interp] at hnone
    | rep x n => simp [Brack.interp] at hnone
    | bad x n l => simp [iterMacro, Brack.interp] at hy
  case case22 hs xs t ts ih =>
    intro ys hy
    have e : iterMacro (Item.spreadTT hs :: Item.spreadTT xs :: t :: ts) =
        iterMacro (Item.spreadExpr (hs ++ xs) :: t :: ts) := by
      simp only [iterMacro]
    rw [e] at hy
    rw [← fa_merge (A := Item.spreadTT hs) (B := Item.spreadTT xs) (a := hs) (b := xs)
      (by simp [Item.val, Item.sval]) (by simp [Item.val, Item.sval]) (t :: ts)]
    exact ih ys hy
  case case23 hs b t ts hne val hval ih =>
    intro ys hy
    cases b with
    | rep x n => exact absurd rfl (hne x n)
    | bad x n l => simp [Brack.interp] at hval
    | list vs =>
      obtain rfl : vs = val := by simpa [Brack.interp] using hval
      have e : iterMacro
          (Item.spreadTT hs :: Item.spreadBrack (Brack.list vs) :: t :: ts) =
          iterMacro (Item.spreadExpr (hs ++ vs) :: t :: ts) := by
        simp only [iterMacro, Brack.interp]
      rw [e] at hy
      rw [← fa_merge (A := Item.spreadTT hs) (B := Item.spreadBrack (Brack.list vs))
        (a := hs) (b := vs)
        (by simp [Item.val, Item.sval]) (by simp [Item.val, Brack.interp]) (t :: ts)]
      exact ih ys hy
  case case24 hs b t ts hne hnone =>
    intro ys hy
    cases b with
    | list vs => simp [Brack.interp] at hnone
    | rep x n => exact absurd rfl (hne x n)
    | bad x n l => simp [iterMacro, Brack.interp] at hy
  case case25 hs xs t ts ih =>
    intro ys hy
    have e : iterMacro (Item.spreadTT hs :: Item.spreadExpr xs :: t :: ts) =
        iterMacro (Item.spreadExpr (hs ++ xs) :: t :: ts) := by
      simp only [iterMacro]
    rw [e] at hy
    rw [← fa_merge (A := Item.spreadTT hs) (B := Item.spreadExpr xs) (a := hs) (b := xs)
      (by simp [Item.val, Item.sval]) (by simp [Item.val, Item.sval]) (t :: ts)]
    exact ih ys hy
  case case26 hb xs t ts val hval ih =>
    intro ys hy
    cases hb with
    | bad x n l => simp [Brack.interp] at hval
    | list vs =>
      obtain rfl : vs = val := by simpa [Brack.interp] using hval
      have e : iterMacro
          (Item.spreadBrack (Brack.list vs) :: Item.spreadTT xs :: t :: ts) =
          iterMacro (Item.spreadExpr (vs ++ xs) :: t :: ts) := by
        simp only [iterMacro, Brack.interp]
      rw [e] at hy
      rw [← fa_merge (A := Item.spreadBrack (Brack.list vs)) (B := Item.spreadTT xs)
        (a := vs) (b := xs)
        (by simp [Item.val, Brack.interp]) (by simp [Item.val, Item.sval]) (t :: ts)]
      exact ih ys hy
    | rep x n =>
      obtain rfl : List.replicate n x = val := by simpa [Brack.interp] using hval
      have e : iterMacro
          (Item.spreadBrack (Brack.rep x n) :: Item.spreadTT xs :: t :: ts) =
          iterMacro (Item.spreadExpr (List.replicate n x ++ xs) :: t :: ts) := by
        simp only [iterMacro, Brack.interp]
      rw [e] at hy
      rw [← fa_merge (A := Item.spreadBrack (Brack.rep x n)) (B := Item.spreadTT xs)
        (a := List.replicate n x) (b := xs)
        (by simp [Item.val, Brack.interp]) (by simp [Item.val, Item.sval]) (t :: ts)]
      exact ih ys hy
  case case27 hb xs t ts hnone =>
    intro ys hy
    cases hb with
    | list vs => simp [Brack.interp] at hnone
    | rep x n => simp [Brack.interp] at hnone
    | bad x n l => simp [iterMacro, Brack.interp] at hy
  case case28 hb b t ts hne v w hw hv ih =>
    intro ys hy
    cases b with
    | rep x n => exact absurd rfl (hne x n)
    | bad x n l => simp [Brack.interp] at hw
    | list vs =>
      obtain rfl : vs = w := by simpa [Brack.interp] using hw
      cases hb with
      | bad x n l => simp [Brack.interp] at hv
      | list l2 =>
        obtain rfl : l2 = v := by simpa [Brack.interp] using hv
        have e : iterMacro
            (Item.spreadBrack (Brack.list l2) :: Item.spreadBrack (Brack.list vs) :: t :: ts) =
            iterMacro (Item.spreadExpr (l2 ++ vs) :: t :: ts) := by
          simp only [iterMacro, Brack.interp]
        rw [e] at hy
        rw [← fa_merge (A := Item.spreadBrack (Brack.list l2))
          (B := Item.spreadBrack (Brack.list vs)) (a := l2) (b := vs)
          (by simp [Item.val, Brack.interp]) (by simp [Item.val, Brack.interp]) (t :: ts)]
        exact ih ys hy
      | rep x n =>
        obtain rfl : List.replicate n x = v := by simpa [Brack.interp] using hv
        have e : iterMacro
            (Item.spreadBrack (Brack.rep x n) :: Item.spreadBrack (Brack.list vs) :: t :: ts) =
            iterMacro (Item.spreadExpr (List.replicate n x ++ vs) :: t :: ts) := by
          simp only [iterMacro, Brack.interp]
        rw [e] at hy
        rw [← fa_merge (A := Item.spreadBrack (Brack.rep x n))
          (B := Item.spreadBrack (Brack.list vs)) (a := List.replicate n x) (b := vs)
          (by simp [Item.val, Brack.interp]) (by simp [Item.val, Brack.interp]) (t :: ts)]
        exact ih ys hy
  case case29 hb b t ts hne hfail =>
    intro ys hy
    cases b with
    | rep x n => exact absurd rfl (hne x n)
    | bad x n l => cases hb <;> simp [iterMacro, Brack.interp] at hy
    | list vs =>
      cases hb with
      | list l2 => exact (hfail l2 vs rfl rfl).elim
      | rep x n => exact (hfail _ vs rfl rfl).elim
      | bad x n l => simp [iterMacro, Brack.interp] at hy
  case case30 hb xs t ts val hval ih =>
    intro ys hy
    cases hb with
    | bad x n l => simp [Brack.interp] at hval
    | list vs =>
      obtain rfl : vs = val := by simpa [Brack.interp] using hval
      have e : iterMacro
          (Item.spreadBrack (Brack.list vs) :: Item.spreadExpr xs :: t :: ts) =
          iterMacro (Item.spreadExpr (vs ++ xs) :: t :: ts) := by
        simp only [iterMacro, Brack.interp]
      rw [e] at hy
      rw [← fa_merge (A := Item.spreadBrack (Brack.list vs)) (B := Item.spreadExpr xs)
        (a := vs) (b := xs)
        (by simp [Item.val, Brack.interp]) (by simp [Item.val, Item.sval]) (t :: ts)]
      exact ih ys hy
    | rep x n =>
      obtain rfl : List.replicate n x = val := by simpa [Brack.interp] using hval
      have e : iterMacro
          (Item.spreadBrack (Brack.rep x n) :: Item.spreadExpr xs :: t :: ts) =
          iterMacro (Item.spreadExpr (List.replicate n x ++ xs) :: t :: ts) := by
        simp only [iterMacro, Brack.interp]
      rw [e] at hy
      rw [← fa_merge (A := Item.spreadBrack (Brack.rep x n)) (B := Item.spreadExpr xs)
        (a := List.replicate n x) (b := xs)
        (by simp [Item.val, Brack.interp]) (by simp [Item.val, Item.sval]) (t :: ts)]
      exact ih ys hy
  case case31 hb xs t ts hnone =>
    intro ys hy
    cases hb with
    | list vs => simp [Brack.interp] at hnone
    | rep x n => simp [Brack.interp] at hnone
    | bad x n l => simp [iterMacro, Brack.interp] at hy
  case case32 b x tail ih =>
    intro ys hy
    cases b with
    | list vs =>
      simp only [Brack.shift] at ih
      have e : iterMacro (Item.spreadBrack (Brack.list vs) :: Item.elem x :: tail) =
          iterMacro (Item.spreadBrack (Brack.list (vs ++ [x])) :: tail) := by
        simp only [iterMacro, Brack.shift]
      rw [e] at hy
      rw [← fa_shift_list vs x tail]
      exact ih ys hy
    | rep y n =>
      simp only [Brack.shift] at ih
      have e : iterMacro (Item.spreadBrack (Brack.rep y n) :: Item.elem x :: tail) =
          iterMacro (Item.spreadBrack (Brack.bad y n [x]) :: tail) := by
        simp only [iterMacro, Brack.shift]
      rw [e] at hy
      have := ih ys hy
      rw [fa_val_none (by simp [Item.val, Brack.interp]) tail] at this
      cases this
    | bad y n l =>
      simp only [Brack.shift] at ih
      have e : iterMacro (Item.spreadBrack (Brack.bad y n l) :: Item.elem x :: tail) =
          iterMacro (Item.spreadBrack (Brack.bad y n (l ++ [x])) :: tail) := by
        simp only [iterMacro, Brack.shift]
      rw [e] at hy
      have := ih ys hy
      rw [fa_val_none (by simp [Item.val, Brack.interp]) tail] at this
      cases this
  case case33 hs tail c1 c2 c3 c4 c5 c6 c7 c8 c9 c10 val hval ih =>
    intro ys hy
    simp [iterMacro, c1, c2, c3, c4, c5, c6, c7, c8, c9, c10, hval] at hy
    subst hy
    have hft := ih val hval
    cases hft2 : flattenArgs tail with
    | none => rw [hft2] at hft; cases hft
    | some w =>
      rw [hft2] at hft
      obtain rfl : w = val := by simpa using hft
      simp [flattenArgs, Item.val, Item.sval, hft2]
  case case34 hs tail c1 c2 c3 c4 c5 c6 c7 c8 c9 c10 hnone ih =>
    intro ys hy
    simp [iterMacro, c1, c2, c3, c4, c5, c6, c7, c8, c9, c10, hnone] at hy
  case case35 b tail c1 c2 c3 c4 c5 c6 c7 c8 c9 c10 c11 v w hw hv ih =>
    intro ys hy
    have hft := ih w hw
    cases b with
    | bad y n l => simp [Brack.interp] at hv
    | list vs =>
      obtain rfl : vs = v := by simpa [Brack.interp] using hv
      simp [iterMacro, Brack.interp, c1, c2, c3, c4, c5, c6, c7, c8, c9, c10, c11, hw] at hy
      subst hy
      simp [flattenArgs, Item.val, Item.sval, Brack.interp, hft]
    | rep y n =>
      obtain rfl : List.replicate n y = v := by simpa [Brack.interp] using hv
      simp [iterMacro, Brack.interp, c1, c2, c3, c4, c5, c6, c7, c8, c9, c10, c11, hw] at hy
      subst hy
      simp [flattenArgs, Item.val, Item.sval, Brack.interp, hft]
  case case36 b tail c1 c2 c3 c4 c5 c6 c7 c8 c9 c10 c11 hfail ih =>
    intro ys hy
    cases b with
    | bad y n l => simp [iterMacro, Brack.interp, c1, c2, c3, c4, c5, c6, c7, c8, c9, c10, c11] at hy
    | list vs =>
      cases ht : iterMacro tail with
      | some w => exact (hfail vs w rfl ht).elim
      | none => simp [iterMacro, Brack.interp, c1, c2, c3, c4, c5, c6, c7, c8, c9, c10, c11, ht] at hy
    | rep y n =>
      cases ht : iterMacro tail with
      | some w => exact (hfail _ w rfl ht).elim
      | none => simp [iterMacro, Brack.interp, c1, c2, c3, c4, c5, c6, c7, c8, c9, c10, c11, ht] at hy
  case case37 xs tail val hval ih =>
    intro ys hy
    simp [iterMacro, hval] at hy
    subst hy
    have hft := ih val hval
    simp [flattenArgs, Item.val, Item.sval, hft]
  case case38 xs tail hnone ih =>
    intro ys hy
    simp [iterMacro, hnone] at hy
  case case39 x tail ih =>
    intro ys hy
    have e : iterMacro (Item.elem x :: tail) =
        iterMacro (Item.spreadBrack (Brack.list [x]) :: tail) := by
      simp only [iterMacro]
    rw [e] at hy
    rw [fa_retag (A := Item.elem x) (B := Item.spreadBrack (Brack.list [x]))
      (by simp [Item.val, Item.sval, Brack.interp]) tail]
    exact ih ys hy
  case case40 x tail ih =>
    intro ys hy
    have e : iterMacro (Item.elemN x :: tail) =
        iterMacro (Item.spreadBrack (Brack.list [x]) :: tail) := by
      simp only [iterMacro]
    rw [e] at hy
    rw [fa_retag (A := Item.elemN x) (B := Item.spreadBrack (Brack.list [x]))
      (by simp [Item.val, Item.sval, Brack.interp]) tail]
    exact ih ys hy

/-- Model of the `chain!` macro (src/chain.rs lines 9-41), one match arm per
rewrite rule, in source rule order.  `chain!` has no rules for the repeat
forms: a `...[...xs; n]` argument reaches a position where its bracket group
is read as an expression and is a compile error on every path, so it is
mapped to `none` directly.  In the rule at lines 17-23 the merged chain is
bound to a fresh variable `c2`, so the rewritten head spread is a single
token tree (`spreadTT`). -/
def chainMacro : List (Item α) → Option (List α)
  -- line 11: empty invocation
  | [] => some []
  -- lines 13-15: a single `...tt` spread
  | [.spreadTT xs] => some xs
  | [.spreadBrack b] => b.interp
  -- `...[...xs; n]` anywhere at the head is a compile error for chain!
  | .spreadCycle _ _ :: _ => none
  | .spreadCycleN _ _ :: _ => none
  -- lines 17-23: `...$some:tt, ...$spread:expr`: let c2 = chain(c1, spread)
  -- and continue with `...c2` (a single-token-tree head)
  | .spreadTT hs :: .spreadTT xs :: tail => chainMacro (.spreadTT (hs ++ xs) :: tail)
  | .spreadTT hs :: .spreadBrack b :: tail =>
    match b.interp with
    | some bv => chainMacro (.spreadTT (hs ++ bv) :: tail)
    | none => none
  | .spreadTT hs :: .spreadExpr xs :: tail => chainMacro (.spreadTT (hs ++ xs) :: tail)
  | .spreadTT _ :: .spreadCycle _ _ :: _ => none
  | .spreadTT _ :: .spreadCycleN _ _ :: _ => none
  | .spreadBrack hb :: .spreadTT xs :: tail =>
    match hb.interp with
    | some hv => chainMacro (.spreadTT (hv ++ xs) :: tail)
    | none => none
  | .spreadBrack hb :: .spreadBrack b :: tail =>
    match hb.interp, b.interp with
    | some hv, some bv => chainMacro (.spreadTT (hv ++ bv) :: tail)
    | _, _ => none
  | .spreadBrack hb :: .spreadExpr xs :: tail =>
    match hb.interp with
    | some hv => chainMacro (.spreadTT (hv ++ xs) :: tail)
    | none => none
  | .spreadBrack _ :: .spreadCycle _ _ :: _ => none
  | .spreadBrack _ :: .spreadCycleN _ _ :: _ => none
  -- lines 26-28: shift a single-token-tree element into the bracket literal
  | .spreadBrack b :: .elem x :: tail => chainMacro (.spreadBrack (b.shift x) :: tail)
  -- lines 31-35: first item is a spread, read as an expression
  | .spreadTT hs :: tail =>
    match chainMacro tail with
    | some tv => some (hs ++ tv)
    | none => none
  | .spreadBrack b :: tail =>
    match b.interp, chainMacro tail with
    | some bv, some tv => some (bv ++ tv)
    | _, _ => none
  | .spreadExpr xs :: tail =>
    match chainMacro tail with
    | some tv => some (xs ++ tv)
    | none => none
  -- lines 38-40: shift a plain element into a new starting literal
  | .elem x :: tail => chainMacro (.spreadBrack (.list [x]) :: tail)
  | .elemN x :: tail => chainMacro (.spreadBrack (.list [x]) :: tail)
termination_by args => argsWeight args
decreasing_by
  all_goals (simp only [argsWeight, List.map_cons, List.sum_cons, weight]; omega)

/-- Model of the `vek!` macro (src/lib.rs lines 113-119): the empty
invocation is `Vec::new()`, and any other argument list is passed unchanged
to `iter!` and collected; collecting preserves the element sequence. -/
def vekMacro (args : List (Item α)) : Option (List α) :=
  match args with
  | [] => some []
  | _ => iterMacro args

/-- Element expression of a top-level repeat form `[x; n]`: either a single
token tree (a literal, an identifier, a parenthesized expression, ...), or
an expression spanning several token trees (for example `a + b`); in both
cases with value `x`. -/
inductive RepArg (α : Type) where
  | tt : α → RepArg α
  | exprN : α → RepArg α
  deriving Repr, DecidableEq

/-- Model of the top-level repeat form `iter![x; n]`.  The rule at
src/iter.rs lines 130-132 is `($x:tt; $n:expr)`: when `x` is a single token
tree it expands to `std::iter::repeat(x).take(n)`.  When `x` spans several
token trees that rule does not match, and no later rule consumes the `; n`
(the rule at line 189 parses `$x:expr` and then requires a comma or the
end of the input), so the invocation is a compile error. -/
def iterRepMacro : RepArg α → Nat → Option (List α)
  | .tt x, n => some (List.replicate n x)
  | .exprN _, _ => none

/-- Model of `vek![x; n]` (src/lib.rs lines 113-119): `vek!` hands `x; n`
unchanged to `iter!` and collects the result. -/
def vekRepMacro (r : RepArg α) (n : Nat) : Option (List α) := iterRepMacro r n

/-- Modelled from the spec: the ordinary `vec![a1, ..., ak]` macro of the
host language standard library, the comparison target of the
literal-equivalence claim; it builds exactly the vector of its arguments. -/
def vecMacroList (L : List α) : List α := L

/-- Modelled from the spec: the ordinary `vec![x; n]` macro form, a vector
of `n` copies of `x`. -/
def vecMacroRep (x : α) (n : Nat) : List α := List.replicate n x

/-- Modelled from the spec: ordinary array construction followed by
`into_iter()`, the comparison target for `iter!` on plain literals; it
yields exactly the elements in order. -/
def arrayIntoIter (L : List α) : List α := L

theorem simple_ok {i : Item α} (h : Item.simple i = true) : Item.ok i = true := by
  cases i with
  | elem x => rfl
  | elemN x => rfl
  | spreadTT xs => rfl
  | spreadExpr xs => rfl
  | spreadCycle xs n => rfl
  | spreadCycleN xs n => simp [Item.simple] at h
  | spreadBrack b =>
    cases b with
    | list vs => rfl
    | rep x n => simp [Item.simple] at h
    | bad x n l => simp [Item.simple] at h

theorem simple_head {i : Item α} {t : List (Item α)}
    (h : ∀ j ∈ i :: t, Item.simple j = true) : Item.simple i = true :=
  h i (List.mem_cons_self i t)

theorem simple_tail {i : Item α} {t : List (Item α)}
    (h : ∀ j ∈ i :: t, Item.simple j = true) : ∀ j ∈ t, Item.simple j = true :=
  fun j hj => h j (List.mem_cons_of_mem _ hj)

theorem simple_cons {i : Item α} {t : List (Item α)} (hi : Item.simple i = true)
    (ht : ∀ j ∈ t, Item.simple j = true) : ∀ j ∈ i :: t, Item.simple j = true := by
  intro j hj
  rcases List.mem_cons.mp hj with rfl | hj
  · exact hi
  · exact ht j hj

/-- On argument lists of plain elements and plain spreads (no repeat
counts), the `chain!` rules always match and the expansion is the in-order
concatenation of the argument sequences. -/
theorem chainMacro_simple (args : List (Item α)) :
    (∀ i ∈ args, Item.simple i = true) →
      chainMacro args = some ((args.map Item.sval).flatten) := by
  induction args using chainMacro.induct <;> intro hok
  case case1 => simp [chainMacro]
  case case2 xs => simp [chainMacro, Item.sval]
  case case3 b =>
    cases b with
    | list vs => simp [chainMacro, Brack.interp, Item.sval]
    | rep x n => have := simple_head hok; simp [Item.simple] at this
    | bad x n l => have := simple_head hok; simp [Item.simple] at this
  case case4 xs n tail =>
    have := simple_head hok
    simp [Item.simple] at this
  case case5 =>
    have := simple_head hok
    simp [Item.simple] at this
  case case11 =>
    have := simple_head (simple_tail hok)
    simp [Item.simple] at this
  case case19 =>
    have := simple_head (simple_tail hok)
    simp [Item.simple] at this
  case case6 hs xs tail ih =>
    have e : chainMacro (Item.spreadTT hs :: Item.spreadTT xs :: tail) =
        chainMacro (Item.spreadTT (hs ++ xs) :: tail) := by
      simp only [chainMacro]
    rw [e, ih (simple_cons rfl (simple_tail (simple_tail hok)))]
    simp [Item.sval]
  case case7 hs b tail val hval ih =>
    cases b with
    | rep x n => have := simple_head (simple_tail hok); simp [Item.simple] at this
    | bad x n l => simp [Brack.interp] at hval
    | list vs =>
      obtain rfl : vs = val := by simpa [Brack.interp] using hval
      have e : chainMacro (Item.spreadTT hs :: Item.spreadBrack (Brack.list vs) :: tail) =
          chainMacro (Item.spreadTT (hs ++ vs) :: tail) := by
        simp only [chainMacro, Brack.interp]
      rw [e, ih (simple_cons rfl (simple_tail (simple_tail hok)))]
      simp [Item.sval]
  case case8 hs b tail hnone =>
    cases b with
    | list vs => simp [Brack.interp] at hnone
    | rep x n => have := simple_head (simple_tail hok); simp [Item.simple] at this
    | bad x n l => have := simple_head (simple_tail hok); simp [Item.simple] at this
  case case9 hs xs tail ih =>
    have e : chainMacro (Item.spreadTT hs :: Item.spreadExpr xs :: tail) =
        chainMacro (Item.spreadTT (hs ++ xs) :: tail) := by
      simp only [chainMacro]
    rw [e, ih (simple_cons rfl (simple_tail (simple_tail hok)))]
    simp [Item.sval]
  case case10 a a1 a2 tail =>
    have := simple_head (simple_tail hok)
    simp [Item.simple] at this
  case case12 hb xs tail val hval ih =>
    cases hb with
    | rep x n => have := simple_head hok; simp [Item.simple] at this
    | bad x n l => simp [Brack.interp] at hval
    | list vs =>
      obtain rfl : vs = val := by simpa [Brack.interp] using hval
      have e : chainMacro (Item.spreadBrack (Brack.list vs) :: Item.spreadTT xs :: tail) =
          chainMacro (Item.spreadTT (vs ++ xs) :: tail) := by
        simp only [chainMacro, Brack.interp]
      rw [e, ih (simple_cons rfl (simple_tail (simple_tail hok)))]
      simp [Item.sval]
  case case13 hb xs tail hnone =>
    cases hb with
    | list vs => simp [Brack.interp] at hnone
    | rep x n => have := simple_head hok; simp [Item.simple] at this
    | bad x n l => have := simple_head hok; simp [Item.simple] at this
  case case14 hb b tail v w hw hv ih =>
    cases hb with
    | rep x n => have := simple_head hok; simp [Item.simple] at this
    | bad x n l => simp [Brack.interp] at hv
    | list hvs =>
      obtain rfl : hvs = v := by simpa [Brack.interp] using hv
      cases b with
      | rep x n => have := simple_head (simple_tail hok); simp [Item.simple] at this
      | bad x n l => simp [Brack.interp] at hw
      | list vs =>
        obtain rfl : vs = w := by simpa [Brack.interp] using hw
        have e : chainMacro
            (Item.spreadBrack (Brack.list hvs) :: Item.spreadBrack (Brack.list vs) :: tail) =
            chainMacro (Item.spreadTT (hvs ++ vs) :: tail) := by
          simp only [chainMacro, Brack.interp]
        rw [e, ih (simple_cons rfl (simple_tail (simple_tail hok)))]
        simp [Item.sval]
  case case15 hb b tail hfail =>
    cases hb with
    | rep x n => have := simple_head hok; simp [Item.simple] at this
    | bad x n l => have := simple_head hok; simp [Item.simple] at this
    | list hvs =>
      cases b with
      | rep x n => have := simple_head (simple_tail hok); simp [Item.simple] at this
      | bad x n l => have := simple_head (simple_tail hok); simp [Item.simple] at this
      | list vs => exact (hfail hvs vs rfl rfl).elim
  case case16 hb xs tail val hval ih =>
    cases hb with
    | rep x n => have := simple_head hok; simp [Item.simple] at this
    | bad x n l => simp [Brack.interp] at hval
    | list vs =>
      obtain rfl : vs = val := by simpa [Brack.interp] using hval
      have e : chainMacro (Item.spreadBrack (Brack.list vs) :: Item.spreadExpr xs :: tail) =
          chainMacro (Item.spreadTT (vs ++ xs) :: tail) := by
        simp only [chainMacro, Brack.interp]
      rw [e, ih (simple_cons rfl (simple_tail (simple_tail hok)))]
      simp [Item.sval]
  case case17 hb xs tail hnone =>
    cases hb with
    | list vs => simp [Brack.interp] at hnone
    | rep x n => have := simple_head hok; simp [Item.simple] at this
    | bad x n l => have := simple_head hok; simp [Item.simple] at this
  case case18 a a1 a2 tail =>
    have := simple_head (simple_tail hok)
    simp [Item.simple] at this
  case case20 b x tail ih =>
    cases b with
    | rep y n => have := simple_head hok; simp [Item.simple] at this
    | bad y n l => have := simple_head hok; simp [Item.simple] at this
    | list vs =>
      simp only [Brack.shift] at ih
      have e : chainMacro (Item.spreadBrack (Brack.list vs) :: Item.elem x :: tail) =
          chainMacro (Item.spreadBrack (Brack.list (vs ++ [x])) :: tail) := by
        simp only [chainMacro, Brack.shift]
      rw [e, ih (simple_cons rfl (simple_tail (simple_tail hok)))]
      simp [Item.sval]
  case case21 hs tail c1 c2 c3 c4 c5 c6 val hval ih =>
    have hv2 : chainMacro tail = some ((tail.map Item.sval).flatten) := ih (simple_tail hok)
    simp [chainMacro, c1, c2, c3, c4, c5, c6, hv2, Item.sval]
  case case22 hs tail c1 c2 c3 c4 c5 c6 hnone ih =>
    rw [ih (simple_tail hok)] at hnone
    simp at hnone
  case case23 b tail c1 c2 c3 c4 c5 c6 c7 v w hw hv ih =>
    cases b with
    | rep y n => have := simple_head hok; simp [Item.simple] at this
    | bad y n l => have := simple_head hok; simp [Item.simple] at this
    | list vs =>
      have hv2 : chainMacro tail = some ((tail.map Item.sval).flatten) := ih (simple_tail hok)
      simp [chainMacro, Brack.interp, c1, c2, c3, c4, c5, c6, c7, hv2, Item.sval]
  case case24 b tail c1 c2 c3 c4 c5 c6 c7 hfail ih =>
    cases b with
    | rep y n => have := simple_head hok; simp [Item.simple] at this
    | bad y n l => have := simple_head hok; simp [Item.simple] at this
    | list vs =>
      exact (hfail vs ((tail.map Item.sval).flatten) rfl (ih (simple_tail hok))).elim
  case case25 xs tail val hval ih =>
    have hv2 : chainMacro tail = some ((tail.map Item.sval).flatten) := ih (simple_tail hok)
    simp [chainMacro, hv2, Item.sval]
  case case26 xs tail hnone ih =>
    rw [ih (simple_tail hok)] at hnone
    simp at hnone
  case case27 x tail ih =>
    have e : chainMacro (Item.elem x :: tail) =
        chainMacro (Item.spreadBrack (Brack.list [x]) :: tail) := by
      simp only [chainMacro]
    rw [e, ih (simple_cons rfl (simple_tail hok))]
    simp [Item.sval]
  case case28 x tail ih =>
    have e : chainMacro (Item.elemN x :: tail) =
        chainMacro (Item.spreadBrack (Brack.list [x]) :: tail) := by
      simp only [chainMacro]
    rw [e, ih (simple_cons rfl (simple_tail hok))]
    simp [Item.sval]

theorem sval_map_elem (L : List α) :
    ((L.map Item.elem).map Item.sval).flatten = L := by
  induction L with
  | nil => rfl
  | cons a t ih =>
    simp only [List.map_cons, List.flatten_cons]
    rw [ih]
    simp [Item.sval]

theorem simple_map_elem (L : List α) :
    ∀ i ∈ L.map Item.elem, Item.simple i = true := by
  intro i hi
  obtain ⟨y, hy, rfl⟩ := List.mem_map.mp hi
  rfl

/-- CLAIM C1: for every `iter!` (or `vek!`) invocation whose arguments are a
sequence of plain elements and spread-marked expressions, the resulting
sequence is the in-order concatenation in which each plain element
contributes itself and each spread contributes all of its elements. -/
theorem spread_concat_c1 (args : List (Item α)) :
    (∀ i ∈ args, Item.simple i = true) →
      iterMacro args = some ((args.map Item.sval).flatten) ∧
      vekMacro args = some ((args.map Item.sval).flatten) := by
  intro h
  have hi := iterMacro_ok args (fun i hm => simple_ok (h i hm))
  refine ⟨hi, ?_⟩
  cases args with
  | nil => rfl
  | cons a t => simpa [vekMacro] using hi

/-- Witness for C1 at a concrete input of the shape
`iter![a1, ...xs, a2, ...ys]`. -/
theorem spread_concat_c1_witness :
    (∀ i ∈ ([Item.elem 1, Item.spreadTT [2, 3], Item.elem 4, Item.spreadExpr [5, 6]] :
        List (Item Nat)), Item.simple i = true) ∧
      iterMacro ([Item.elem 1, Item.spreadTT [2, 3], Item.elem 4, Item.spreadExpr [5, 6]] :
        List (Item Nat)) = some [1, 2, 3, 4, 5, 6] ∧
      vekMacro ([Item.elem 1, Item.spreadTT [2, 3], Item.elem 4, Item.spreadExpr [5, 6]] :
        List (Item Nat)) = some [1, 2, 3, 4, 5, 6] := by
  have h := spread_concat_c1
    ([Item.elem 1, Item.spreadTT [2, 3], Item.elem 4, Item.spreadExpr [5, 6]] :
      List (Item Nat)) (by decide)
  exact ⟨by decide, h.1.trans (by decide), h.2.trans (by decide)⟩

/-- CLAIM C2 (amended): whenever the `iter!` rewrite rules match a mixed
sequence of plain elements, spreads and repeat-counts and the expansion
compiles, the produced expression yields the expected in-order
concatenation; and on every argument list without a `[x; n]`-repeat bracket
and without a cycle bracket whose contents span several token trees (plain
elements, plain spreads and single-token-tree cycles `...[...t; n]`, in any
order and position) the rules are guaranteed to match.  The original claim
fails in two ways: a `...[x; n]` repeat-count spread at the head followed
by a plain element produces the invalid bracket `[x; n, elem]` (see the
counterexample), and a cycle bracket with multi-token-tree contents after a
single-token-tree spread is a compile error, because the rule at
src/iter.rs line 150 requires `$x:tt` and the rule at line 160 then commits
the bracket to `$xs:expr` expression parsing. -/
theorem iter_rewrite_c2 (args : List (Item α)) :
    (∀ ys, iterMacro args = some ys → flattenArgs args = some ys) ∧
      ((∀ i ∈ args, Item.ok i = true) →
        iterMacro args = some ((args.map Item.sval).flatten)) :=
  ⟨iterMacro_sound args, iterMacro_ok args⟩

/-- Counterexample to C2 as stated: `iter![...[7; 2], 5]` — a repeat-count
spread followed by a plain element — does not expand: the shift-elem rule
(src/iter.rs lines 177-179) rewrites it to `iter![...[7; 2, 5],]` whose
bracket `[7; 2, 5]` is not a valid expression, so the invocation is a
compile error instead of yielding `7, 7, 5`. -/
theorem iter_rep_head_elem_c2 :
    iterMacro ([Item.spreadBrack (Brack.rep 7 2), Item.elem 5] : List (Item Nat)) = none ∧
      flattenArgs ([Item.spreadBrack (Brack.rep 7 2), Item.elem 5] : List (Item Nat)) =
        some [7, 7, 5] := by
  constructor
  · simp [iterMacro, Brack.shift, Brack.interp]
  · decide

/-- Witness for C2 (amended) at a concrete mixed input
`iter![1, ...[...[2, 3]; 2]]`. -/
theorem iter_rewrite_c2_witness :
    flattenArgs ([Item.elem 1, Item.spreadCycle [2, 3] 2] : List (Item Nat)) =
        some [1, 2, 3, 2, 3] ∧
      iterMacro ([Item.elem 1, Item.spreadCycle [2, 3] 2] : List (Item Nat)) =
        some [1, 2, 3, 2, 3] := by
  have h := iter_rewrite_c2 ([Item.elem 1, Item.spreadCycle [2, 3] 2] : List (Item Nat))
  have hs : iterMacro ([Item.elem 1, Item.spreadCycle [2, 3] 2] : List (Item Nat)) =
      some [1, 2, 3, 2, 3] := (h.2 (by decide)).trans (by decide)
  exact ⟨h.1 [1, 2, 3, 2, 3] hs, hs⟩

/-- CLAIM C4 (amended): on ordinary literal syntax, `vek!` builds exactly
the vector `vec!` builds and `iter!` yields exactly the sequence of
ordinary array construction followed by `into_iter` — for every list of
plain elements, and for the repeat form `[x; n]` whose element `x` is a
single token tree — with `iter![]` yielding the empty sequence.  For a
repeat form whose element spans several token trees the original claim
fails: `vek![x; n]` is then a compile error while `vec![x; n]` is not —
see the counterexample. -/
theorem literal_equiv_c4 (L : List α) (x : α) (k : Nat) :
    vekMacro (L.map Item.elem) = some (vecMacroList L) ∧
      vekRepMacro (RepArg.tt x) k = some (vecMacroRep x k) ∧
      iterMacro (L.map Item.elem) = some (arrayIntoIter L) ∧
      iterMacro ([] : List (Item α)) = some [] := by
  have hi := iterMacro_ok (L.map Item.elem)
    (fun i hm => simple_ok (simple_map_elem L i hm))
  rw [sval_map_elem] at hi
  refine ⟨?_, rfl, by simpa [arrayIntoIter] using hi, by simp [iterMacro]⟩
  cases L with
  | nil => rfl
  | cons a t => simpa [vekMacro, vecMacroList] using hi

/-- Counterexample to C4 as stated: for a repeat form whose element spans
several token trees — `vek![a + b; 3]`, with 5 as the value of `a + b` —
the rule at src/iter.rs lines 130-132 (`$x:tt; $n:expr`) does not match
(`$x:tt` consumes only `a`, then `+` is not `;`) and no other rule consumes
the `; 3`, so `vek![a + b; 3]` and `iter![a + b; 3]` are compile errors,
while the ordinary `vec![a + b; 3]` builds three copies of the element. -/
theorem vek_rep_multi_token_c4 :
    vekRepMacro (RepArg.exprN (5 : Nat)) 3 = none ∧
      vecMacroRep (5 : Nat) 3 = [5, 5, 5] := by
  constructor
  · rfl
  · rfl

/-- CLAIM C6: on every argument list of plain elements and spread-elements
(no repeat-counts), the near-duplicate `chain!` and `iter!` rewrite
grammars produce the same element sequence. -/
theorem chain_iter_equiv_c6 (args : List (Item α)) :
    (∀ i ∈ args, Item.simple i = true) → chainMacro args = iterMacro args := by
  intro h
  rw [chainMacro_simple args h, iterMacro_ok args (fun i hm => simple_ok (h i hm))]

/-- Witness for C6 at a concrete input. -/
theorem chain_iter_equiv_c6_witness :
    (∀ i ∈ ([Item.elem 1, Item.spreadTT [2, 3], Item.spreadExpr [4]] : List (Item Nat)),
        Item.simple i = true) ∧
      chainMacro ([Item.elem 1, Item.spreadTT [2, 3], Item.spreadExpr [4]] :
          List (Item Nat)) =
        iterMacro ([Item.elem 1, Item.spreadTT [2, 3], Item.spreadExpr [4]] :
          List (Item Nat)) :=
  ⟨by decide, chain_iter_equiv_c6 _ (by decide)⟩

end LitVek
